import Mathlib

/-!
Verification of the sshmount filesystem bridge against its specification.

The development shallowly embeds the data structures and operations of the
bridge:

* `HMap` models `std::collections::HashMap` as an association list with
  unique keys (insertion replaces, removal deletes the keyed entry);
* `BiHashMap` models `src/ssh_filesystem/bi_hash_map.rs`;
* `Inodes` models `src/ssh_filesystem/inode.rs` (paths are component lists);
* the error translations, the attribute translator, and the `rmdir`/`mknod`
  callbacks model the corresponding parts of `src/ssh_filesystem.rs`, with
  the remote SFTP answers passed in as explicit oracle arguments.
-/

namespace HMap

variable {K V : Type} [DecidableEq K]

/-- `HashMap::get`: the value stored under key `k`, if any. -/
def get : List (K × V) → K → Option V
  | [], _ => none
  | e :: t, k => if e.1 = k then some e.2 else get t k

/-- `HashMap::remove` (state part): drop the entry keyed `k`. -/
def removeKey : List (K × V) → K → List (K × V)
  | [], _ => []
  | e :: t, k => if e.1 = k then removeKey t k else e :: removeKey t k

/-- `HashMap::insert` (state part): bind `k` to `v`, replacing any previous
binding of `k`. -/
def insertKV (m : List (K × V)) (k : K) (v : V) : List (K × V) :=
  (k, v) :: removeKey m k

/-- The key set is duplicate-free (always true of a real `HashMap`). -/
def nodupKeys (m : List (K × V)) : Prop := (m.map Prod.fst).Nodup

end HMap

/-- Model of `BiHashMap<L, R>`: the two internal hash maps. -/
structure BiHashMap (L R : Type) where
  left : List (L × R)
  right : List (R × L)
deriving DecidableEq

/-- Model of the `OverwriteResult` enum returned by `BiHashMap::insert`. -/
inductive OverwriteResult (L R : Type) where
  | NoOverwrite
  | OverwriteRight (r : R)
  | OverwriteLeft (l : L)
  | OverwriteBoth (p q : L × R)
deriving DecidableEq

namespace BiHashMap

variable {L R : Type} [DecidableEq L] [DecidableEq R]

/-- `BiHashMap::new`. -/
def new : BiHashMap L R := ⟨[], []⟩

/-- `BiHashMap::insert_no_check`: insert into both maps without any check. -/
def insert_no_check (m : BiHashMap L R) (l : L) (r : R) : BiHashMap L R :=
  ⟨HMap.insertKV m.left l r, HMap.insertKV m.right r l⟩

/-- `BiHashMap::insert`: remove both keyed entries, then the stale partners
of whatever was removed, insert the new pair, and report what was displaced. -/
def insert (m : BiHashMap L R) (l : L) (r : R) :
    OverwriteResult L R × BiHashMap L R :=
  let old_left := HMap.get m.right r
  let right1 := HMap.removeKey m.right r
  let old_right := HMap.get m.left l
  let left1 := HMap.removeKey m.left l
  match old_left, old_right with
  | none, none =>
      (OverwriteResult.NoOverwrite, insert_no_check ⟨left1, right1⟩ l r)
  | some oldL, none =>
      (OverwriteResult.OverwriteLeft oldL,
        insert_no_check ⟨HMap.removeKey left1 oldL, right1⟩ l r)
  | none, some oldR =>
      (OverwriteResult.OverwriteRight oldR,
        insert_no_check ⟨left1, HMap.removeKey right1 oldR⟩ l r)
  | some oldL, some oldR =>
      (OverwriteResult.OverwriteBoth (l, oldR) (oldL, r),
        insert_no_check ⟨HMap.removeKey left1 oldL, HMap.removeKey right1 oldR⟩ l r)

/-- `BiHashMap::get_right`. -/
def get_right (m : BiHashMap L R) (l : L) : Option R := HMap.get m.left l

/-- `BiHashMap::get_left`. -/
def get_left (m : BiHashMap L R) (r : R) : Option L := HMap.get m.right r

/-- `BiHashMap::contains_left`. -/
def contains_left (m : BiHashMap L R) (l : L) : Bool := (HMap.get m.left l).isSome

/-- `BiHashMap::contains_right`. -/
def contains_right (m : BiHashMap L R) (r : R) : Bool := (HMap.get m.right r).isSome

/-- `BiHashMap::insert_no_overwrite`: fail (leaving the map unchanged) when
either key is present. -/
def insert_no_overwrite (m : BiHashMap L R) (l : L) (r : R) :
    Except Unit (BiHashMap L R) :=
  if m.contains_left l || m.contains_right r then Except.error ()
  else Except.ok (insert_no_check m l r)

/-- `BiHashMap::remove_left`. -/
def remove_left (m : BiHashMap L R) (l : L) : Option R × BiHashMap L R :=
  match HMap.get m.left l with
  | some r => (some r, ⟨HMap.removeKey m.left l, HMap.removeKey m.right r⟩)
  | none => (none, ⟨HMap.removeKey m.left l, m.right⟩)

/-- `BiHashMap::remove_right`. -/
def remove_right (m : BiHashMap L R) (r : R) : Option L × BiHashMap L R :=
  match HMap.get m.right r with
  | some l => (some l, ⟨HMap.removeKey m.left l, HMap.removeKey m.right r⟩)
  | none => (none, ⟨m.left, HMap.removeKey m.right r⟩)

/-- The representation invariant of a `BiHashMap`: both hash maps have
duplicate-free key sets and record exactly the same set of pairs. -/
def BiInv (m : BiHashMap L R) : Prop :=
  HMap.nodupKeys m.left ∧ HMap.nodupKeys m.right ∧
    ∀ l r, HMap.get m.left l = some r ↔ HMap.get m.right r = some l

end BiHashMap

/-- The four `BiHashMap` operations named by the spec. -/
inductive BOp (L R : Type) where
  | ins (l : L) (r : R)
  | insNo (l : L) (r : R)
  | remL (l : L)
  | remR (r : R)

/-- Apply one operation, keeping only the resulting map state (a failing
`insert_no_overwrite` leaves the map unchanged). -/
def applyBOp {L R : Type} [DecidableEq L] [DecidableEq R]
    (m : BiHashMap L R) : BOp L R → BiHashMap L R
  | .ins l r => (BiHashMap.insert m l r).2
  | .insNo l r =>
      match BiHashMap.insert_no_overwrite m l r with
      | Except.ok m2 => m2
      | Except.error _ => m
  | .remL l => (BiHashMap.remove_left m l).2
  | .remR r => (BiHashMap.remove_right m r).2

/-- Run a sequence of `BiHashMap` operations. -/
def runBOps {L R : Type} [DecidableEq L] [DecidableEq R]
    (ops : List (BOp L R)) (m : BiHashMap L R) : BiHashMap L R :=
  ops.foldl applyBOp m

/-- A remote path, as its list of components (`PathBuf`). -/
abbrev RPath := List String

/-- `PathBuf::push` of a single leaf component. -/
def pathPush (p : RPath) (name : String) : RPath := p ++ [name]

/-- Model of the `Inodes` structure: the bidirectional list and the
`next_inode` counter (initialised to 2 by `Inodes::new`). -/
structure Inodes where
  list : BiHashMap Nat RPath
  next_inode : Nat
deriving DecidableEq

namespace Inodes

/-- `Inodes::new`. -/
def new : Inodes := ⟨BiHashMap.new, 2⟩

/-- `Inodes::add`: return the registered inode for `path` if present, else
allocate `next_inode` (post-incrementing the counter, as `fetch_add` does)
and register the pair. The `Err` arm of `insert_no_overwrite` is
`unreachable!` in the source (both keys were just checked absent); it is
modelled as leaving the list unchanged. -/
def add (s : Inodes) (path : RPath) : Nat × Inodes :=
  match BiHashMap.get_left s.list path with
  | some i => (i, s)
  | none =>
    let inode := s.next_inode
    let s2 : Inodes := ⟨s.list, s.next_inode + 1⟩
    match BiHashMap.insert_no_overwrite s2.list inode path with
    | Except.ok m => (inode, ⟨m, s2.next_inode⟩)
    | Except.error _ => (inode, s2)

/-- `Inodes::get_inode`. -/
def get_inode (s : Inodes) (path : RPath) : Option Nat :=
  BiHashMap.get_left s.list path

/-- `Inodes::get_path`. -/
def get_path (s : Inodes) (inode : Nat) : Option RPath :=
  BiHashMap.get_right s.list inode

/-- `Inodes::del_inode`. -/
def del_inode (s : Inodes) (inode : Nat) : Option Nat × Inodes :=
  let res := BiHashMap.remove_left s.list inode
  (res.1.map (fun _ => inode), ⟨res.2, s.next_inode⟩)

/-- `Inodes::del_inode_with_path`. -/
def del_inode_with_path (s : Inodes) (path : RPath) : Option Nat × Inodes :=
  let res := BiHashMap.remove_right s.list path
  (res.1, ⟨res.2, s.next_inode⟩)

/-- `Inodes::rename`: no-op when `old_path` is unregistered, else remove
the binding of its inode and re-insert that inode bound to `new_path`. -/
def rename (s : Inodes) (old_path new_path : RPath) : Inodes :=
  match BiHashMap.get_left s.list old_path with
  | none => s
  | some ino =>
    let m1 := (BiHashMap.remove_left s.list ino).2
    let m2 := (BiHashMap.insert m1 ino new_path).2
    ⟨m2, s.next_inode⟩

end Inodes

/-- The inode-table effect of `Sshfs::new`: a fresh table, then `add(root)`. -/
def sshfsNewInodes (root : RPath) : Inodes := (Inodes.new.add root).2

/-- The inode-table mutations the filesystem callbacks perform. -/
inductive IOp where
  | add (p : RPath)
  | delInode (i : Nat)
  | delPath (p : RPath)
  | ren (a b : RPath)

/-- Apply one inode-table operation, keeping the resulting state. -/
def applyIOp (s : Inodes) : IOp → Inodes
  | .add p => (s.add p).2
  | .delInode i => (s.del_inode i).2
  | .delPath p => (s.del_inode_with_path p).2
  | .ren a b => s.rename a b

/-- Run a sequence of inode-table operations. -/
def runIOps (ops : List IOp) (s : Inodes) : Inodes := ops.foldl applyIOp s

/-- The inode-table invariant: the bidirectional list is well formed and
every registered inode lies in the interval `[2, next_inode)`. -/
def GoodInodes (s : Inodes) : Prop :=
  BiHashMap.BiInv s.list ∧ 2 ≤ s.next_inode ∧
    ∀ i p, HMap.get s.list.left i = some p → 2 ≤ i ∧ i < s.next_inode

/-- The inode-table states the program can reach: anything obtained from
`Inodes::new` by the operations the callbacks perform. -/
def ReachableInodes (s : Inodes) : Prop := ∃ ops, s = runIOps ops Inodes.new

/-- Linux errno values (`libc` crate constants), plus `libc::EOF`. -/
def ENOENTc : Int := 2

def EACCESc : Int := 13

def ECONNREFUSEDc : Int := 111

def ECONNRESETc : Int := 104

def ECONNABORTEDc : Int := 103

def ENOTCONNc : Int := 107

def EADDRINUSEc : Int := 98

def EADDRNOTAVAILc : Int := 99

def EPIPEc : Int := 32

def EEXISTc : Int := 17

def EWOULDBLOCKc : Int := 11

def EINVALc : Int := 22

def EILSEQc : Int := 84

def ETIMEDOUTc : Int := 110

def EIOc : Int := 5

def EINTRc : Int := 4

def ENOTSUPc : Int := 95

def ENOMEMc : Int := 12

def ENODEVc : Int := 19

def ENETDOWNc : Int := 100

def EBADFc : Int := 9

def ENOSPCc : Int := 28

def EDQUOTc : Int := 122

def ENOLCKc : Int := 37

def ENOTEMPTYc : Int := 39

def ENOTDIRc : Int := 20

def ENAMETOOLONGc : Int := 36

def ELOOPc : Int := 40

def ENXIOc : Int := 6

def EPERMc : Int := 1

/-- `libc::EOF`, the C stdio end-of-file marker — not an errno. -/
def EOFc : Int := -1

/-- `ssh2::ErrorCode`. -/
inductive Ssh2ErrorCode where
  | session (i : Int)
  | sftp (i : Int)
deriving DecidableEq

/-- `impl From<ssh2::Error> for Error` (the errno it produces). -/
def ssh2ErrorToErrno : Ssh2ErrorCode → Int
  | .session _ => ENXIOc
  | .sftp i =>
    if i = 2 then ENOENTc
    else if i = 3 then EACCESc
    else if i = 4 then EIOc
    else if i = 5 then ENODEVc
    else if i = 6 then ENXIOc
    else if i = 7 then ENETDOWNc
    else if i = 8 then ENODEVc
    else if i = 9 then EBADFc
    else if i = 10 then ENOENTc
    else if i = 11 then EEXISTc
    else if i = 12 then EACCESc
    else if i = 13 then ENXIOc
    else if i = 14 then ENOSPCc
    else if i = 15 then EDQUOTc
    else if i = 16 then ENODEVc
    else if i = 17 then ENOLCKc
    else if i = 18 then ENOTEMPTYc
    else if i = 19 then ENOTDIRc
    else if i = 20 then ENAMETOOLONGc
    else if i = 21 then ELOOPc
    else EIOc

/-- `std::io::ErrorKind`, restricted to the arms the source matches, with a
catch-all constructor standing for every other kind. -/
inductive IoErrorKind where
  | notFound
  | permissionDenied
  | connectionRefused
  | connectionReset
  | connectionAborted
  | notConnected
  | addrInUse
  | addrNotAvailable
  | brokenPipe
  | alreadyExists
  | wouldBlock
  | invalidInput
  | invalidData
  | timedOut
  | writeZero
  | interrupted
  | unsupported
  | unexpectedEof
  | outOfMemory
  | otherKind
deriving DecidableEq

/-- `impl From<std::io::Error> for Error` (the errno it produces). -/
def ioErrorToErrno : IoErrorKind → Int
  | .notFound => ENOENTc
  | .permissionDenied => EACCESc
  | .connectionRefused => ECONNREFUSEDc
  | .connectionReset => ECONNRESETc
  | .connectionAborted => ECONNABORTEDc
  | .notConnected => ENOTCONNc
  | .addrInUse => EADDRINUSEc
  | .addrNotAvailable => EADDRNOTAVAILc
  | .brokenPipe => EPIPEc
  | .alreadyExists => EEXISTc
  | .wouldBlock => EWOULDBLOCKc
  | .invalidInput => EINVALc
  | .invalidData => EILSEQc
  | .timedOut => ETIMEDOUTc
  | .writeZero => EIOc
  | .interrupted => EINTRc
  | .unsupported => ENOTSUPc
  | .unexpectedEof => EOFc
  | .outOfMemory => ENOMEMc
  | .otherKind => EIOc

/-- `ssh2::FileType`. -/
inductive SftpFileType where
  | namedPipe
  | charDevice
  | blockDevice
  | directory
  | regularFile
  | symlink
  | socket
  | other (n : Nat)
deriving DecidableEq

/-- `fuser::FileType`. -/
inductive FuserFileType where
  | namedPipe
  | charDevice
  | blockDevice
  | directory
  | regularFile
  | symlink
  | socket
deriving DecidableEq

/-- `Sshfs::conv_file_kind_ssh2fuser`. -/
def conv_file_kind_ssh2fuser : SftpFileType → Except Int FuserFileType
  | .namedPipe => .ok .namedPipe
  | .charDevice => .ok .charDevice
  | .blockDevice => .ok .blockDevice
  | .directory => .ok .directory
  | .regularFile => .ok .regularFile
  | .symlink => .ok .symlink
  | .socket => .ok .socket
  | .other _ => .error EBADFc

/-- `ssh2::FileStat` (the fields the bridge reads). -/
structure FileStat where
  size : Option Nat
  uid : Option Nat
  gid : Option Nat
  perm : Option Nat
  atime : Option Nat
  mtime : Option Nat
deriving DecidableEq

/-- `fuser::FileAttr`; times are seconds since the Unix epoch. -/
structure FileAttr where
  ino : Nat
  size : Nat
  blocks : Nat
  atime : Nat
  mtime : Nat
  ctime : Nat
  crtime : Nat
  kind : FuserFileType
  perm : Nat
  nlink : Nat
  uid : Nat
  gid : Nat
  rdev : Nat
  blksize : Nat
  flags : Nat
deriving DecidableEq

/-- `Sshfs::getattr_from_ssh2`: the remote `lstat` answer and the file type
it reports are oracle arguments. On success the path is added to the inode
table (the documented side effect of the attribute fetch); `perm` is the
`as u16` truncation of the SFTP mode, defaulted to `0o666`. -/
def getattr_from_ssh2 (s : Inodes) (path : RPath) (uid gid : Nat)
    (lstat : Except Ssh2ErrorCode FileStat) (ftype : SftpFileType) :
    Except Int (FileAttr × Inodes) :=
  match lstat with
  | .error e => .error (ssh2ErrorToErrno e)
  | .ok st =>
    match conv_file_kind_ssh2fuser ftype with
    | .error e => .error e
    | .ok kind =>
      let res := s.add path
      .ok ({ ino := res.1
             size := st.size.getD 0
             blocks := st.size.getD 0 / 512 + 1
             atime := st.atime.getD 0
             mtime := st.mtime.getD 0
             ctime := st.mtime.getD 0
             crtime := 0
             kind := kind
             perm := st.perm.getD 0o666 % 65536
             nlink := 1
             uid := uid
             gid := gid
             rdev := 0
             blksize := 512
             flags := 0 }, res.2)

/-- A FUSE reply: exactly one per callback. -/
inductive Reply where
  | ok
  | error (e : Int)
  | entry (attr : FileAttr)
deriving DecidableEq

/-- `Sshfs::rmdir`: the outcome of the remote `sftp.rmdir` is an oracle
argument. Session error code −31 is special-cased to `ENOTEMPTY`. -/
def rmdirModel (s : Inodes) (parent : Nat) (name : String)
    (remote : Except Ssh2ErrorCode Unit) : Inodes × Reply :=
  match s.get_path parent with
  | none => (s, .error ENOENTc)
  | some pp =>
    let path := pathPush pp name
    match remote with
    | .ok _ => ((s.del_inode_with_path path).2, .ok)
    | .error e =>
      if e = .session (-31) then (s, .error ENOTEMPTYc)
      else (s, .error (ssh2ErrorToErrno e))

/-- Bitwise complement on `u32` (`!umask` in the source). -/
def not32 (u : Nat) : Nat := u ^^^ 4294967295

/-- `libc::S_IFMT`. -/
def S_IFMTc : Nat := 0o170000

/-- `libc::S_IFREG`. -/
def S_IFREGc : Nat := 0o100000

/-- `Sshfs::mknod`: the remote `open_mode` answer and the subsequent
`lstat` are oracle arguments. The last component of the result is the mode
sent with the remote create request (`none`: no remote request issued). -/
def mknodModel (s : Inodes) (parent : Nat) (name : String) (mode umask : Nat)
    (uid gid : Nat) (remoteOpen : Except Ssh2ErrorCode Unit)
    (remoteLstat : Except Ssh2ErrorCode FileStat) (ftype : SftpFileType) :
    Inodes × Reply × Option Nat :=
  if mode &&& S_IFMTc ≠ S_IFREGc then (s, .error EPERMc, none)
  else
    let mode2 := mode &&& (not32 umask ||| S_IFMTc)
    match s.get_path parent with
    | none => (s, .error ENOENTc, none)
    | some pp =>
      let new_name := pathPush pp name
      match remoteOpen with
      | .error e => (s, .error (ssh2ErrorToErrno e), some mode2)
      | .ok _ =>
        match getattr_from_ssh2 s new_name uid gid remoteLstat ftype with
        | .error e => (s, .error e, some mode2)
        | .ok res => (res.2, .entry res.1, some mode2)

/-- The inode number `readdir` emits for one directory entry: the synthetic
value 1 for `.` and `..`, otherwise `Inodes::add` of the entry path. -/
def readdirEntryIno (s : Inodes) (entry : RPath) (isDotEntry : Bool) :
    Nat × Inodes :=
  if isDotEntry then (1, s) else s.add entry

/-- A concrete two-sided map holding exactly the pair `(1, 10)`. -/
def c3m : BiHashMap Nat Nat := (BiHashMap.insert BiHashMap.new 1 10).2

/-- A concrete SFTP stat answer used to exercise the attribute translator. -/
def statW : FileStat := ⟨some 1000, none, none, none, none, some 7⟩

/-- The kernel attribute record the translator produces from `statW`. -/
def attrW : FileAttr :=
  ⟨2, 1000, 2, 0, 7, 7, 0, FuserFileType.regularFile, 438, 1, 42, 43, 0, 512, 0⟩

/-- The inode table after `statW`'s fetch registered the path `["f"]`. -/
def inodesW : Inodes := ⟨⟨[(2, ["f"])], [(["f"], 2)]⟩, 3⟩

/-! ### Theorems -/

namespace HMap

variable {K V : Type} [DecidableEq K]

theorem get_removeKey (m : List (K × V)) (k k' : K) :
    get (removeKey m k) k' = if k' = k then none else get m k' := by
  induction m with
  | nil => simp [removeKey, get]
  | cons e t ih =>
    by_cases h2 : k' = k
    · subst h2
      by_cases h1 : e.1 = k'
      · simp [removeKey, h1, ih]
      · simp [removeKey, get, h1, ih]
    · have h4 : ¬ k = k' := fun hh => h2 hh.symm
      by_cases h1 : e.1 = k
      · have h3 : ¬ e.1 = k' := by rw [h1]; exact h4
        simp [removeKey, get, h1, h2, h3, h4, ih]
      · simp [removeKey, get, h1, h2, h4, ih]

theorem get_insertKV (m : List (K × V)) (k : K) (v : V) (k' : K) :
    get (insertKV m k v) k' = if k' = k then some v else get m k' := by
  by_cases h : k' = k
  · simp [insertKV, get, h]
  · have hk : ¬ k = k' := fun hh => h hh.symm
    simp [insertKV, get, hk, h, get_removeKey]

theorem removeKey_sublist (m : List (K × V)) (k : K) :
    (removeKey m k).Sublist m := by
  induction m with
  | nil => exact List.Sublist.refl _
  | cons e t ih =>
    rw [removeKey]
    by_cases h : e.1 = k
    · rw [if_pos h]; exact ih.cons e
    · rw [if_neg h]; exact ih.cons₂ e

theorem not_mem_keys_removeKey (m : List (K × V)) (k : K) :
    k ∉ (removeKey m k).map Prod.fst := by
  induction m with
  | nil => simp [removeKey]
  | cons e t ih =>
    rw [removeKey]
    by_cases h : e.1 = k
    · rw [if_pos h]; exact ih
    · rw [if_neg h]
      simp only [List.map_cons, List.mem_cons]
      rintro (h1 | h1)
      · exact h h1.symm
      · exact ih h1

theorem nodupKeys_removeKey {m : List (K × V)} (h : nodupKeys m) (k : K) :
    nodupKeys (removeKey m k) :=
  List.Nodup.sublist ((removeKey_sublist m k).map Prod.fst) h

theorem nodupKeys_insertKV {m : List (K × V)} (h : nodupKeys m) (k : K) (v : V) :
    nodupKeys (insertKV m k v) := by
  unfold nodupKeys insertKV
  simp only [List.map_cons]
  exact List.nodup_cons.mpr ⟨not_mem_keys_removeKey m k, nodupKeys_removeKey h k⟩

theorem mem_of_get {m : List (K × V)} {k : K} {v : V} (h : get m k = some v) :
    (k, v) ∈ m := by
  induction m with
  | nil => simp [get] at h
  | cons e t ih =>
    cases e with
    | mk a b =>
      by_cases h1 : a = k
      · subst h1
        simp [get] at h
        subst h
        exact List.mem_cons_self _ _
      · simp [get, h1] at h
        exact List.mem_cons_of_mem _ (ih h)

theorem get_of_mem_nodup {m : List (K × V)} (hm : nodupKeys m) {k : K} {v : V}
    (h : (k, v) ∈ m) : get m k = some v := by
  induction m with
  | nil => simp at h
  | cons e t ih =>
    rcases List.mem_cons.mp h with h1 | h1
    · simp [get, ← h1]
    · have hk : k ∈ t.map Prod.fst := List.mem_map.mpr ⟨(k, v), h1, rfl⟩
      have he : e.1 ≠ k := by
        intro hek
        exact (List.nodup_cons.mp hm).1 (hek ▸ hk)
      simp [get, he]
      exact ih (List.nodup_cons.mp hm).2 h1

end HMap

namespace BiHashMap

variable {L R : Type} [DecidableEq L] [DecidableEq R]

theorem biInv_new : BiInv (new : BiHashMap L R) := by
  refine ⟨List.nodup_nil, List.nodup_nil, ?_⟩
  intro l r
  simp [new, HMap.get]

theorem insert_fst (m : BiHashMap L R) (l : L) (r : R) :
    (insert m l r).1 =
      match HMap.get m.right r, HMap.get m.left l with
      | none, none => OverwriteResult.NoOverwrite
      | some oldL, none => OverwriteResult.OverwriteLeft oldL
      | none, some oldR => OverwriteResult.OverwriteRight oldR
      | some oldL, some oldR => OverwriteResult.OverwriteBoth (l, oldR) (oldL, r) := by
  cases hol : HMap.get m.right r <;> cases hor : HMap.get m.left l <;>
    simp [insert, hol, hor]

theorem insert_get_left (m : BiHashMap L R) (l : L) (r : R) (l' : L) :
    HMap.get ((insert m l r).2).left l' =
      if l' = l then some r
      else if some l' = HMap.get m.right r then none
      else HMap.get m.left l' := by
  cases hol : HMap.get m.right r <;> cases hor : HMap.get m.left l <;>
    simp [insert, hol, hor, insert_no_check, HMap.get_insertKV, HMap.get_removeKey] <;>
    split_ifs <;> simp_all

theorem insert_get_right (m : BiHashMap L R) (l : L) (r : R) (r' : R) :
    HMap.get ((insert m l r).2).right r' =
      if r' = r then some l
      else if some r' = HMap.get m.left l then none
      else HMap.get m.right r' := by
  cases hol : HMap.get m.right r <;> cases hor : HMap.get m.left l <;>
    simp [insert, hol, hor, insert_no_check, HMap.get_insertKV, HMap.get_removeKey] <;>
    split_ifs <;> simp_all

theorem remove_left_get_left (m : BiHashMap L R) (l : L) (l' : L) :
    HMap.get ((remove_left m l).2).left l' =
      if l' = l then none else HMap.get m.left l' := by
  cases h : HMap.get m.left l <;>
    simp [remove_left, h, HMap.get_removeKey]

theorem remove_left_get_right (m : BiHashMap L R) (l : L) (r' : R) :
    HMap.get ((remove_left m l).2).right r' =
      if some r' = HMap.get m.left l then none else HMap.get m.right r' := by
  cases h : HMap.get m.left l <;>
    simp [remove_left, h, HMap.get_removeKey]

theorem remove_right_get_right (m : BiHashMap L R) (r : R) (r' : R) :
    HMap.get ((remove_right m r).2).right r' =
      if r' = r then none else HMap.get m.right r' := by
  cases h : HMap.get m.right r <;>
    simp [remove_right, h, HMap.get_removeKey]

theorem remove_right_get_left (m : BiHashMap L R) (r : R) (l' : L) :
    HMap.get ((remove_right m r).2).left l' =
      if some l' = HMap.get m.right r then none else HMap.get m.left l' := by
  cases h : HMap.get m.right r <;>
    simp [remove_right, h, HMap.get_removeKey]

theorem insert_no_check_get_left (m : BiHashMap L R) (l : L) (r : R) (l' : L) :
    HMap.get (insert_no_check m l r).left l' =
      if l' = l then some r else HMap.get m.left l' :=
  HMap.get_insertKV m.left l r l'

theorem insert_no_check_get_right (m : BiHashMap L R) (l : L) (r : R) (r' : R) :
    HMap.get (insert_no_check m l r).right r' =
      if r' = r then some l else HMap.get m.right r' :=
  HMap.get_insertKV m.right r l r'

theorem insert_no_overwrite_eq (m : BiHashMap L R) (l : L) (r : R) :
    insert_no_overwrite m l r =
      if HMap.get m.left l = none ∧ HMap.get m.right r = none
      then Except.ok (insert_no_check m l r) else Except.error () := by
  cases h1 : HMap.get m.left l <;> cases h2 : HMap.get m.right r <;>
    simp [insert_no_overwrite, contains_left, contains_right, h1, h2]

theorem biInv_insert {m : BiHashMap L R} (h : BiInv m) (l : L) (r : R) :
    BiInv (insert m l r).2 := by
  obtain ⟨hL, hR, hIff⟩ := h
  refine ⟨?_, ?_, ?_⟩
  · cases hol : HMap.get m.right r <;> cases hor : HMap.get m.left l <;>
      simp only [insert, hol, hor, insert_no_check] <;>
      first
        | exact HMap.nodupKeys_insertKV (HMap.nodupKeys_removeKey hL l) l r
        | exact HMap.nodupKeys_insertKV
            (HMap.nodupKeys_removeKey (HMap.nodupKeys_removeKey hL l) _) l r
  · cases hol : HMap.get m.right r <;> cases hor : HMap.get m.left l <;>
      simp only [insert, hol, hor, insert_no_check] <;>
      first
        | exact HMap.nodupKeys_insertKV (HMap.nodupKeys_removeKey hR r) r l
        | exact HMap.nodupKeys_insertKV
            (HMap.nodupKeys_removeKey (HMap.nodupKeys_removeKey hR r) _) r l
  · intro l' r'
    rw [insert_get_left, insert_get_right]
    by_cases e1 : l' = l <;> by_cases e2 : r' = r
    · rw [if_pos e1, if_pos e2]
      constructor
      · intro _; rw [e1]
      · intro _; rw [e2]
    · rw [if_pos e1, if_neg e2]
      constructor
      · intro hx
        exact absurd (Option.some.inj hx).symm e2
      · intro hx
        by_cases e4 : some r' = HMap.get m.left l
        · rw [if_pos e4] at hx
          exact absurd hx (by simp)
        · rw [if_neg e4] at hx
          have h1 : HMap.get m.left l = some r' := (hIff l r').mpr (e1 ▸ hx)
          exact absurd h1.symm e4
    · rw [if_neg e1, if_pos e2]
      constructor
      · intro hx
        by_cases e3 : some l' = HMap.get m.right r
        · rw [if_pos e3] at hx
          exact absurd hx (by simp)
        · rw [if_neg e3] at hx
          have h1 : HMap.get m.right r = some l' := (hIff l' r).mp (e2 ▸ hx)
          exact absurd h1.symm e3
      · intro hx
        exact absurd (Option.some.inj hx).symm e1
    · rw [if_neg e1, if_neg e2]
      by_cases e3 : some l' = HMap.get m.right r <;>
        by_cases e4 : some r' = HMap.get m.left l
      · rw [if_pos e3, if_pos e4]
        constructor <;> intro hx <;> exact absurd hx (by simp)
      · rw [if_pos e3, if_neg e4]
        constructor
        · intro hx
          exact absurd hx (by simp)
        · intro hx
          have h1 : HMap.get m.left l' = some r' := (hIff l' r').mpr hx
          have h2 : HMap.get m.left l' = some r := (hIff l' r).mpr e3.symm
          exact absurd (Option.some.inj (h1.symm.trans h2)) e2
      · rw [if_neg e3, if_pos e4]
        constructor
        · intro hx
          have h1 : HMap.get m.right r' = some l' := (hIff l' r').mp hx
          have h2 : HMap.get m.right r' = some l := (hIff l r').mp e4.symm
          exact absurd (Option.some.inj (h1.symm.trans h2)) e1
        · intro hx
          exact absurd hx (by simp)
      · rw [if_neg e3, if_neg e4]
        exact hIff l' r'

theorem biInv_insert_no_check {m : BiHashMap L R} (h : BiInv m)
    (l : L) (r : R) (hl : HMap.get m.left l = none)
    (hr : HMap.get m.right r = none) : BiInv (insert_no_check m l r) := by
  obtain ⟨hL, hR, hIff⟩ := h
  refine ⟨HMap.nodupKeys_insertKV hL l r, HMap.nodupKeys_insertKV hR r l, ?_⟩
  intro l' r'
  rw [insert_no_check_get_left, insert_no_check_get_right]
  by_cases e1 : l' = l <;> by_cases e2 : r' = r
  · rw [if_pos e1, if_pos e2]
    constructor
    · intro _; rw [e1]
    · intro _; rw [e2]
  · rw [if_pos e1, if_neg e2]
    constructor
    · intro hx
      exact absurd (Option.some.inj hx).symm e2
    · intro hx
      have h1 : HMap.get m.left l = some r' := (hIff l r').mpr (e1 ▸ hx)
      rw [hl] at h1
      exact absurd h1 (by simp)
  · rw [if_neg e1, if_pos e2]
    constructor
    · intro hx
      have h1 : HMap.get m.right r = some l' := (hIff l' r).mp (e2 ▸ hx)
      rw [hr] at h1
      exact absurd h1 (by simp)
    · intro hx
      exact absurd (Option.some.inj hx).symm e1
  · rw [if_neg e1, if_neg e2]
    exact hIff l' r'

theorem biInv_insert_no_overwrite {m m' : BiHashMap L R} (h : BiInv m)
    (l : L) (r : R) (hok : insert_no_overwrite m l r = Except.ok m') :
    BiInv m' := by
  rw [insert_no_overwrite_eq] at hok
  by_cases hc : HMap.get m.left l = none ∧ HMap.get m.right r = none
  · rw [if_pos hc] at hok
    cases hok
    exact biInv_insert_no_check h l r hc.1 hc.2
  · rw [if_neg hc] at hok
    cases hok

theorem biInv_remove_left {m : BiHashMap L R} (h : BiInv m) (l : L) :
    BiInv (remove_left m l).2 := by
  obtain ⟨hL, hR, hIff⟩ := h
  refine ⟨?_, ?_, ?_⟩
  · cases hg : HMap.get m.left l <;> simp only [remove_left, hg] <;>
      exact HMap.nodupKeys_removeKey hL l
  · cases hg : HMap.get m.left l <;> simp only [remove_left, hg]
    · exact hR
    · exact HMap.nodupKeys_removeKey hR _
  · intro l' r'
    rw [remove_left_get_left, remove_left_get_right]
    by_cases e1 : l' = l
    · rw [if_pos e1]
      constructor
      · intro hx
        exact absurd hx (by simp)
      · intro hx
        by_cases e4 : some r' = HMap.get m.left l
        · rw [if_pos e4] at hx
          exact absurd hx (by simp)
        · rw [if_neg e4] at hx
          have h1 : HMap.get m.left l = some r' := (hIff l r').mpr (e1 ▸ hx)
          exact absurd h1.symm e4
    · rw [if_neg e1]
      by_cases e4 : some r' = HMap.get m.left l
      · rw [if_pos e4]
        constructor
        · intro hx
          have h1 : HMap.get m.right r' = some l' := (hIff l' r').mp hx
          have h2 : HMap.get m.right r' = some l := (hIff l r').mp e4.symm
          exact absurd (Option.some.inj (h1.symm.trans h2)) e1
        · intro hx
          exact absurd hx (by simp)
      · rw [if_neg e4]
        exact hIff l' r'

theorem biInv_remove_right {m : BiHashMap L R} (h : BiInv m) (r : R) :
    BiInv (remove_right m r).2 := by
  obtain ⟨hL, hR, hIff⟩ := h
  refine ⟨?_, ?_, ?_⟩
  · cases hg : HMap.get m.right r <;> simp only [remove_right, hg]
    · exact hL
    · exact HMap.nodupKeys_removeKey hL _
  · cases hg : HMap.get m.right r <;> simp only [remove_right, hg] <;>
      exact HMap.nodupKeys_removeKey hR r
  · intro l' r'
    rw [remove_right_get_left, remove_right_get_right]
    by_cases e1 : r' = r
    · rw [if_pos e1]
      constructor
      · intro hx
        by_cases e4 : some l' = HMap.get m.right r
        · rw [if_pos e4] at hx
          exact absurd hx (by simp)
        · rw [if_neg e4] at hx
          have h1 : HMap.get m.right r = some l' := (hIff l' r).mp (e1 ▸ hx)
          exact absurd h1.symm e4
      · intro hx
        exact absurd hx (by simp)
    · rw [if_neg e1]
      by_cases e4 : some l' = HMap.get m.right r
      · rw [if_pos e4]
        constructor
        · intro hx
          exact absurd hx (by simp)
        · intro hx
          have h1 : HMap.get m.left l' = some r' := (hIff l' r').mpr hx
          have h2 : HMap.get m.left l' = some r := (hIff l' r).mpr e4.symm
          exact absurd (Option.some.inj (h1.symm.trans h2)) e1
      · rw [if_neg e4]
        exact hIff l' r'

theorem length_eq_of_biInv {m : BiHashMap L R} (h : BiInv m) :
    m.left.length = m.right.length := by
  obtain ⟨hL, hR, hIff⟩ := h
  have hLn : m.left.Nodup := List.Nodup.of_map _ hL
  have hRn : m.right.Nodup := List.Nodup.of_map _ hR
  have hsub1 : m.left.map Prod.swap ⊆ m.right := by
    intro x hx
    obtain ⟨⟨a, b⟩, hmem, rfl⟩ := List.mem_map.mp hx
    exact HMap.mem_of_get ((hIff a b).mp (HMap.get_of_mem_nodup hL hmem))
  have hsub2 : m.right.map Prod.swap ⊆ m.left := by
    intro x hx
    obtain ⟨⟨b, a⟩, hmem, rfl⟩ := List.mem_map.mp hx
    exact HMap.mem_of_get ((hIff a b).mpr (HMap.get_of_mem_nodup hR hmem))
  have h1 : m.left.length ≤ m.right.length := by
    have := (List.Nodup.subperm (hLn.map Prod.swap_injective) hsub1).length_le
    simpa using this
  have h2 : m.right.length ≤ m.left.length := by
    have := (List.Nodup.subperm (hRn.map Prod.swap_injective) hsub2).length_le
    simpa using this
  omega

end BiHashMap

/-- Helper: the `BiHashMap` invariant is preserved by any operation sequence. -/
theorem biInv_runBOps {L R : Type} [DecidableEq L] [DecidableEq R]
    (ops : List (BOp L R)) :
    ∀ m : BiHashMap L R, BiHashMap.BiInv m → BiHashMap.BiInv (runBOps ops m) := by
  induction ops with
  | nil => intro m hm; exact hm
  | cons op t ih =>
    intro m hm
    have hstep : BiHashMap.BiInv (applyBOp m op) := by
      cases op with
      | ins l r => exact BiHashMap.biInv_insert hm l r
      | insNo l r =>
        cases hok : BiHashMap.insert_no_overwrite m l r with
        | ok m2 =>
          simpa [applyBOp, hok] using BiHashMap.biInv_insert_no_overwrite hm l r hok
        | error e => simpa [applyBOp, hok] using hm
      | remL l => exact BiHashMap.biInv_remove_left hm l
      | remR r => exact BiHashMap.biInv_remove_right hm r
    exact ih (applyBOp m op) hstep

/-- C4: for every finite sequence of BiMap operations starting from the
empty map, the left-to-right and right-to-left maps have equal cardinality
and are mutual inverses: `get_right l = some r` iff `get_left r = some l`. -/
theorem bimap_ops_sizes_and_inverse {L R : Type} [DecidableEq L] [DecidableEq R]
    (ops : List (BOp L R)) :
    (runBOps ops (BiHashMap.new : BiHashMap L R)).left.length =
        (runBOps ops (BiHashMap.new : BiHashMap L R)).right.length ∧
      ∀ l r, BiHashMap.get_right (runBOps ops (BiHashMap.new : BiHashMap L R)) l = some r ↔
        BiHashMap.get_left (runBOps ops (BiHashMap.new : BiHashMap L R)) r = some l := by
  have hInv := biInv_runBOps ops BiHashMap.new BiHashMap.biInv_new
  exact ⟨BiHashMap.length_eq_of_biInv hInv, fun l r => hInv.2.2 l r⟩

/-- C3 (amended): `insert(l, r)` returns `OverwroteBoth` exactly when both
`l` and `r` had a pre-existing binding (whether or not those bindings were
the same pair), and `NoOverwrite` exactly when neither side had one. -/
theorem insert_overwrite_result_iff {L R : Type} [DecidableEq L] [DecidableEq R]
    (m : BiHashMap L R) (l : L) (r : R) :
    ((∃ p q, (BiHashMap.insert m l r).1 = OverwriteResult.OverwriteBoth p q) ↔
      (BiHashMap.contains_left m l = true ∧ BiHashMap.contains_right m r = true)) ∧
    ((BiHashMap.insert m l r).1 = OverwriteResult.NoOverwrite ↔
      (BiHashMap.contains_left m l = false ∧ BiHashMap.contains_right m r = false)) := by
  cases hol : HMap.get m.right r <;> cases hor : HMap.get m.left l <;>
    simp [BiHashMap.insert_fst, BiHashMap.contains_left, BiHashMap.contains_right,
      hol, hor]

/-- C3 counterexample: inserting `(1, 10)` into a map that already holds
exactly the pair `(1, 10)` reports `OverwroteBoth`, although the prior
binding of left key 1 and the prior binding of right key 10 are the same
pair — so "OverwroteBoth iff both sides had pre-existing *distinct*
bindings" is false on the code. -/
theorem insert_overwroteBoth_same_pair :
    (BiHashMap.insert c3m 1 10).1 =
        OverwriteResult.OverwriteBoth (1, 10) (1, 10) ∧
      BiHashMap.get_right c3m 1 = some 10 ∧
      BiHashMap.get_left c3m 10 = some 1 := by decide

/-- C1 (code evaluation at the point of divergence): after the constructor
`Sshfs::new` runs, the root path is bound to inode 2, and inode 1 — the
kernel root and the value `readdir` emits for `.` and `..` — is bound to
nothing: `get_path(1)` is `None`, not the root path. -/
theorem sshfsNew_root_at_two (root : RPath) :
    Inodes.get_path (sshfsNewInodes root) 1 = none ∧
      Inodes.get_path (sshfsNewInodes root) 2 = some root ∧
      Inodes.get_inode (sshfsNewInodes root) root = some 2 := by
  simp [sshfsNewInodes, Inodes.new, Inodes.add, Inodes.get_path, Inodes.get_inode,
    BiHashMap.new, BiHashMap.get_left, BiHashMap.get_right,
    BiHashMap.insert_no_overwrite, BiHashMap.contains_left, BiHashMap.contains_right,
    BiHashMap.insert_no_check, HMap.insertKV, HMap.removeKey, HMap.get]

/-- C2 (code evaluation at the point of divergence): the local I/O error
translation sends `UnexpectedEof` to `libc::EOF` (−1), which is not an
errno and in particular differs from the `EIO` the spec table demands. -/
theorem ioError_unexpectedEof_is_EOF :
    ioErrorToErrno IoErrorKind.unexpectedEof = EOFc ∧
      ioErrorToErrno IoErrorKind.unexpectedEof ≠ EIOc := by decide

namespace Inodes

theorem add_of_registered {s : Inodes} {p : RPath} {i : Nat}
    (h : s.get_inode p = some i) : s.add p = (i, s) := by
  have h2 : BiHashMap.get_left s.list p = some i := h
  simp [add, h2]

theorem next_unbound {s : Inodes} (hg : GoodInodes s) :
    HMap.get s.list.left s.next_inode = none := by
  cases hq : HMap.get s.list.left s.next_inode with
  | none => rfl
  | some q => exact absurd (hg.2.2 _ _ hq).2 (lt_irrefl _)

theorem add_of_unregistered {s : Inodes} {p : RPath} (hg : GoodInodes s)
    (h : s.get_inode p = none) :
    s.add p = (s.next_inode,
      ⟨BiHashMap.insert_no_check s.list s.next_inode p, s.next_inode + 1⟩) := by
  have h2 : BiHashMap.get_left s.list p = none := h
  have hr : HMap.get s.list.right p = none := h
  simp [add, h2, BiHashMap.insert_no_overwrite_eq, next_unbound hg, hr]

theorem good_new : GoodInodes new := by
  refine ⟨BiHashMap.biInv_new, le_refl 2, ?_⟩
  intro i p h
  simp [new, BiHashMap.new, HMap.get] at h

theorem good_add {s : Inodes} (hg : GoodInodes s) (p : RPath) :
    GoodInodes (s.add p).2 := by
  cases hreg : s.get_inode p with
  | some i => rw [add_of_registered hreg]; exact hg
  | none =>
    rw [add_of_unregistered hg hreg]
    show GoodInodes (⟨BiHashMap.insert_no_check s.list s.next_inode p,
      s.next_inode + 1⟩ : Inodes)
    refine ⟨BiHashMap.biInv_insert_no_check hg.1 _ _ (next_unbound hg) hreg, ?_, ?_⟩
    · show 2 ≤ s.next_inode + 1
      have := hg.2.1
      omega
    · intro i q hq
      have hq2 : HMap.get (BiHashMap.insert_no_check s.list s.next_inode p).left i =
          some q := hq
      rw [BiHashMap.insert_no_check_get_left] at hq2
      show 2 ≤ i ∧ i < s.next_inode + 1
      by_cases hi : i = s.next_inode
      · have := hg.2.1
        omega
      · rw [if_neg hi] at hq2
        have := hg.2.2 i q hq2
        omega

theorem good_del_inode {s : Inodes} (hg : GoodInodes s) (i : Nat) :
    GoodInodes (s.del_inode i).2 := by
  refine ⟨BiHashMap.biInv_remove_left hg.1 i, hg.2.1, ?_⟩
  intro i2 p h
  have h2 : HMap.get ((BiHashMap.remove_left s.list i).2).left i2 = some p := h
  rw [BiHashMap.remove_left_get_left] at h2
  by_cases hi : i2 = i
  · rw [if_pos hi] at h2; cases h2
  · rw [if_neg hi] at h2
    exact hg.2.2 i2 p h2

theorem good_del_path {s : Inodes} (hg : GoodInodes s) (p : RPath) :
    GoodInodes (s.del_inode_with_path p).2 := by
  refine ⟨BiHashMap.biInv_remove_right hg.1 p, hg.2.1, ?_⟩
  intro i2 q h
  have h2 : HMap.get ((BiHashMap.remove_right s.list p).2).left i2 = some q := h
  rw [BiHashMap.remove_right_get_left] at h2
  by_cases hi : some i2 = HMap.get s.list.right p
  · rw [if_pos hi] at h2; cases h2
  · rw [if_neg hi] at h2
    exact hg.2.2 i2 q h2

theorem good_rename {s : Inodes} (hg : GoodInodes s) (a b : RPath) :
    GoodInodes (s.rename a b) := by
  cases hreg : BiHashMap.get_left s.list a with
  | none => simp only [rename, hreg]; exact hg
  | some ino =>
    have hino : HMap.get s.list.left ino = some a :=
      (hg.1.2.2 ino a).mpr hreg
    have hbounds := hg.2.2 ino a hino
    have hbi1 : BiHashMap.BiInv (BiHashMap.remove_left s.list ino).2 :=
      BiHashMap.biInv_remove_left hg.1 ino
    have hnext : (s.rename a b).next_inode = s.next_inode := by
      simp only [rename, hreg]
    refine ⟨?_, ?_, ?_⟩
    · have hx : BiHashMap.BiInv
          (BiHashMap.insert (BiHashMap.remove_left s.list ino).2 ino b).2 :=
        BiHashMap.biInv_insert hbi1 ino b
      simp only [rename, hreg]
      exact hx
    · rw [hnext]
      exact hg.2.1
    · intro i p h
      rw [hnext]
      have h2 : HMap.get
          ((BiHashMap.insert (BiHashMap.remove_left s.list ino).2 ino b).2).left i =
          some p := by
        simp only [rename, hreg] at h
        exact h
      rw [BiHashMap.insert_get_left] at h2
      by_cases hi : i = ino
      · exact hi ▸ hbounds
      · rw [if_neg hi] at h2
        by_cases hmid : some i =
            HMap.get ((BiHashMap.remove_left s.list ino).2).right b
        · rw [if_pos hmid] at h2; cases h2
        · rw [if_neg hmid] at h2
          rw [BiHashMap.remove_left_get_left, if_neg hi] at h2
          exact hg.2.2 i p h2

theorem good_applyIOp {s : Inodes} (hg : GoodInodes s) (op : IOp) :
    GoodInodes (applyIOp s op) := by
  cases op with
  | add p => exact good_add hg p
  | delInode i => exact good_del_inode hg i
  | delPath p => exact good_del_path hg p
  | ren a b => exact good_rename hg a b

theorem good_runIOps (ops : List IOp) :
    ∀ s : Inodes, GoodInodes s → GoodInodes (runIOps ops s) := by
  induction ops with
  | nil => intro s hg; exact hg
  | cons op t ih => intro s hg; exact ih (applyIOp s op) (good_applyIOp hg op)

theorem good_reachable {s : Inodes} (h : ReachableInodes s) : GoodInodes s := by
  obtain ⟨ops, rfl⟩ := h
  exact good_runIOps ops new good_new

theorem next_le_applyIOp (s : Inodes) (op : IOp) :
    s.next_inode ≤ (applyIOp s op).next_inode := by
  cases op with
  | add p =>
    show s.next_inode ≤ (s.add p).2.next_inode
    cases hreg : BiHashMap.get_left s.list p with
    | some i => simp [add, hreg]
    | none =>
      cases hok : BiHashMap.insert_no_overwrite s.list s.next_inode p with
      | ok m => simp [add, hreg, hok]
      | error e => simp [add, hreg, hok]
  | delInode i => exact le_refl _
  | delPath p => exact le_refl _
  | ren a b =>
    show s.next_inode ≤ (s.rename a b).next_inode
    cases hreg : BiHashMap.get_left s.list a with
    | some i => simp [rename, hreg]
    | none => simp [rename, hreg]

theorem unbound_applyIOp {s : Inodes} {j : Nat} (hg : GoodInodes s)
    (hlt : j < s.next_inode) (hq : ∀ q, s.get_inode q ≠ some j) (op : IOp) :
    ∀ q, (applyIOp s op).get_inode q ≠ some j := by
  intro q
  cases op with
  | add p =>
    cases hreg : s.get_inode p with
    | some i =>
      show (s.add p).2.get_inode q ≠ some j
      rw [add_of_registered hreg]
      exact hq q
    | none =>
      show (s.add p).2.get_inode q ≠ some j
      rw [add_of_unregistered hg hreg]
      show HMap.get (BiHashMap.insert_no_check s.list s.next_inode p).right q ≠ some j
      rw [BiHashMap.insert_no_check_get_right]
      by_cases hp : q = p
      · rw [if_pos hp]
        intro hc
        have : s.next_inode = j := Option.some.inj hc
        omega
      · rw [if_neg hp]
        exact hq q
  | delInode i =>
    show HMap.get ((BiHashMap.remove_left s.list i).2).right q ≠ some j
    rw [BiHashMap.remove_left_get_right]
    by_cases hc : some q = HMap.get s.list.left i
    · rw [if_pos hc]; exact fun hx => by cases hx
    · rw [if_neg hc]; exact hq q
  | delPath p =>
    show HMap.get ((BiHashMap.remove_right s.list p).2).right q ≠ some j
    rw [BiHashMap.remove_right_get_right]
    by_cases hc : q = p
    · rw [if_pos hc]; exact fun hx => by cases hx
    · rw [if_neg hc]; exact hq q
  | ren a b =>
    cases hreg : BiHashMap.get_left s.list a with
    | none =>
      show (s.rename a b).get_inode q ≠ some j
      simp only [rename, hreg]
      exact hq q
    | some ino =>
      have hino : ino ≠ j := by
        intro hc
        exact hq a (by rw [show s.get_inode a = some ino from hreg, hc])
      show (s.rename a b).get_inode q ≠ some j
      have hrw : (s.rename a b).get_inode q = HMap.get
          ((BiHashMap.insert (BiHashMap.remove_left s.list ino).2 ino b).2).right q := by
        simp only [rename, hreg]
        rfl
      rw [hrw, BiHashMap.insert_get_right]
      by_cases hb : q = b
      · rw [if_pos hb]
        exact fun hx => hino (Option.some.inj hx)
      · rw [if_neg hb]
        by_cases hmid : some q =
            HMap.get ((BiHashMap.remove_left s.list ino).2).left ino
        · rw [if_pos hmid]; exact fun hx => by cases hx
        · rw [if_neg hmid]
          rw [BiHashMap.remove_left_get_right]
          by_cases hc : some q = HMap.get s.list.left ino
          · rw [if_pos hc]; exact fun hx => by cases hx
          · rw [if_neg hc]; exact hq q

theorem unbound_runIOps (j : Nat) (ops : List IOp) :
    ∀ s : Inodes, GoodInodes s → j < s.next_inode →
      (∀ q, s.get_inode q ≠ some j) →
      ∀ q, (runIOps ops s).get_inode q ≠ some j := by
  induction ops with
  | nil => intro s _ _ hq q; exact hq q
  | cons op t ih =>
    intro s hg hlt hq
    exact ih (applyIOp s op) (good_applyIOp hg op)
      (lt_of_lt_of_le hlt (next_le_applyIOp s op)) (unbound_applyIOp hg hlt hq op)

end Inodes

/-- C5: `Inodes::add` is idempotent on every reachable table state: the
second of two successive `add(p)` calls returns the same inode and leaves
the entire state (counter included) unchanged; on an unregistered path the
first call allocates the current counter value, advances the counter once,
and registers the pair. -/
theorem inodes_add_idempotent (s : Inodes) (p : RPath) (h : ReachableInodes s) :
    ((s.add p).2.add p).1 = (s.add p).1 ∧
      ((s.add p).2.add p).2 = (s.add p).2 ∧
      (s.get_inode p = none →
        (s.add p).1 = s.next_inode ∧
          (s.add p).2.next_inode = s.next_inode + 1 ∧
          (s.add p).2.get_inode p = some (s.add p).1) := by
  have hg := Inodes.good_reachable h
  cases hreg : s.get_inode p with
  | some i => simp [Inodes.add_of_registered hreg, hreg]
  | none =>
    have h1 := Inodes.add_of_unregistered hg hreg
    have hreg2 : (⟨BiHashMap.insert_no_check s.list s.next_inode p,
        s.next_inode + 1⟩ : Inodes).get_inode p = some s.next_inode := by
      show HMap.get (BiHashMap.insert_no_check s.list s.next_inode p).right p =
        some s.next_inode
      rw [BiHashMap.insert_no_check_get_right]
      simp
    refine ⟨?_, ?_, fun _ => ⟨?_, ?_, ?_⟩⟩
    · simp [h1, Inodes.add_of_registered hreg2]
    · simp [h1, Inodes.add_of_registered hreg2]
    · simp [h1]
    · simp [h1]
    · simp [h1, Inodes.add_of_registered hreg2]
      exact hreg2

/-- Witness for C5 at the concrete reachable state `Inodes::new`. -/
theorem inodes_add_idempotent_witness :
    ((Inodes.new.add ["a"]).2.add ["a"]).1 = (Inodes.new.add ["a"]).1 ∧
      ((Inodes.new.add ["a"]).2.add ["a"]).2 = (Inodes.new.add ["a"]).2 ∧
      (Inodes.new.get_inode ["a"] = none →
        (Inodes.new.add ["a"]).1 = Inodes.new.next_inode ∧
          (Inodes.new.add ["a"]).2.next_inode = Inodes.new.next_inode + 1 ∧
          (Inodes.new.add ["a"]).2.get_inode ["a"] =
            some (Inodes.new.add ["a"]).1) :=
  inodes_add_idempotent Inodes.new ["a"] ⟨[], rfl⟩

/-- C6 (amended): on a reachable table, `rename(old, new)` with `old`
registered under inode `i` and `old ≠ new` unregisters `old`, re-binds the
same inode `i` to `new`, and discards the inode previously bound to `new`
(if any): that inode is unbound afterwards, and no sequence of further
table operations ever binds it again. -/
theorem inodes_rename_rebinds (s : Inodes) (old_p new_p : RPath)
    (h : ReachableInodes s) (hne : old_p ≠ new_p) :
    (s.get_inode old_p = none → s.rename old_p new_p = s) ∧
      ∀ i, s.get_inode old_p = some i →
        (s.rename old_p new_p).get_inode old_p = none ∧
          (s.rename old_p new_p).get_path i = some new_p ∧
          (s.rename old_p new_p).get_inode new_p = some i ∧
          ∀ j, s.get_inode new_p = some j →
            (s.rename old_p new_p).get_path j = none ∧
            ∀ ops q, (runIOps ops (s.rename old_p new_p)).get_inode q ≠ some j := by
  have hg := Inodes.good_reachable h
  constructor
  · intro hno
    simp [Inodes.rename, show BiHashMap.get_left s.list old_p = none from hno]
  intro i hi
  have hreg : BiHashMap.get_left s.list old_p = some i := hi
  have hleft : HMap.get s.list.left i = some old_p := (hg.1.2.2 i old_p).mpr hreg
  have hm1l : HMap.get ((BiHashMap.remove_left s.list i).2).left i = none := by
    rw [BiHashMap.remove_left_get_left]
    simp
  have hrenl : ∀ x, (s.rename old_p new_p).get_path x = HMap.get
      ((BiHashMap.insert (BiHashMap.remove_left s.list i).2 i new_p).2).left x := by
    intro x
    simp only [Inodes.rename, hreg]
    rfl
  have hrenr : ∀ q, (s.rename old_p new_p).get_inode q = HMap.get
      ((BiHashMap.insert (BiHashMap.remove_left s.list i).2 i new_p).2).right q := by
    intro q
    simp only [Inodes.rename, hreg]
    rfl
  have hA : (s.rename old_p new_p).get_inode old_p = none := by
    rw [hrenr old_p, BiHashMap.insert_get_right, if_neg hne, hm1l,
      if_neg (by simp), BiHashMap.remove_left_get_right, if_pos hleft.symm]
  have hB : (s.rename old_p new_p).get_path i = some new_p := by
    rw [hrenl i, BiHashMap.insert_get_left, if_pos rfl]
  have hC : (s.rename old_p new_p).get_inode new_p = some i := by
    rw [hrenr new_p, BiHashMap.insert_get_right, if_pos rfl]
  refine ⟨hA, hB, hC, ?_⟩
  intro j hj
  have hlj : HMap.get s.list.left j = some new_p := (hg.1.2.2 j new_p).mpr hj
  have hij : i ≠ j := by
    intro hh
    rw [hh] at hleft
    exact hne (Option.some.inj (hleft.symm.trans hlj))
  have hD : (s.rename old_p new_p).get_path j = none := by
    rw [hrenl j, BiHashMap.insert_get_left, if_neg (fun hh => hij hh.symm)]
    have hm1r : HMap.get ((BiHashMap.remove_left s.list i).2).right new_p =
        some j := by
      rw [BiHashMap.remove_left_get_right, hleft,
        if_neg (fun hh => hne (Option.some.inj hh).symm)]
      exact hj
    rw [hm1r, if_pos rfl]
  refine ⟨hD, ?_⟩
  intro ops q
  have hgood : GoodInodes (s.rename old_p new_p) := Inodes.good_rename hg old_p new_p
  have hnext : (s.rename old_p new_p).next_inode = s.next_inode := by
    simp only [Inodes.rename, hreg]
  have hjlt : j < (s.rename old_p new_p).next_inode := by
    rw [hnext]
    exact (hg.2.2 j new_p hlj).2
  have hunb : ∀ q2, (s.rename old_p new_p).get_inode q2 ≠ some j := by
    intro q2
    rw [hrenr q2, BiHashMap.insert_get_right]
    by_cases hqb : q2 = new_p
    · rw [if_pos hqb]
      exact fun hx => hij (Option.some.inj hx)
    · rw [if_neg hqb, hm1l]
      rw [if_neg (by simp), BiHashMap.remove_left_get_right, hleft]
      by_cases hqo : some q2 = some old_p
      · rw [if_pos hqo]
        exact fun hx => by cases hx
      · rw [if_neg hqo]
        intro hx
        have := (hg.1.2.2 j q2).mpr hx
        exact hqb (Option.some.inj (this.symm.trans hlj))
  exact Inodes.unbound_runIOps j ops (s.rename old_p new_p) hgood hjlt hunb q

/-- Witness for C6: rename `["a"]` (registered at inode 2) to `["b"]` on
the table built by construction over root `["a"]`. -/
theorem inodes_rename_rebinds_witness :
    (Inodes.rename (sshfsNewInodes ["a"]) ["a"] ["b"]).get_inode ["a"] = none ∧
      (Inodes.rename (sshfsNewInodes ["a"]) ["a"] ["b"]).get_path 2 =
        some ["b"] ∧
      (Inodes.rename (sshfsNewInodes ["a"]) ["a"] ["b"]).get_inode ["b"] =
        some 2 := by
  have h := (inodes_rename_rebinds (sshfsNewInodes ["a"]) ["a"] ["b"]
    ⟨[IOp.add ["a"]], rfl⟩ (by decide)).2 2 (by decide)
  exact ⟨h.1, h.2.1, h.2.2.1⟩

/-- C6 counterexample: `rename(p, p)` on a table where `p` is registered
(root `["a"]` at inode 2) leaves `get_inode(p) = Some 2`, not the `None`
the claim asserts for every registered `old`. -/
theorem inodes_rename_same_path_cex :
    Inodes.get_inode (Inodes.rename (sshfsNewInodes ["a"]) ["a"] ["a"]) ["a"] =
      some 2 := by decide

/-- C7: whenever the parent inode of an `rmdir` callback resolves, a remote
success removes the binding of the joined path and replies ok, a remote
session error −31 replies `ENOTEMPTY`, and every other session error
replies `ENXIO`. -/
theorem rmdir_replies (s : Inodes) (parent : Nat) (name : String)
    (remote : Except Ssh2ErrorCode Unit) (pp : RPath)
    (h : s.get_path parent = some pp) :
    (remote = Except.ok () →
      (rmdirModel s parent name remote).1.get_inode (pathPush pp name) = none ∧
        (rmdirModel s parent name remote).2 = Reply.ok) ∧
      ∀ i : Int, remote = Except.error (Ssh2ErrorCode.session i) →
        (rmdirModel s parent name remote).2 =
          if i = -31 then Reply.error ENOTEMPTYc else Reply.error ENXIOc := by
  constructor
  · rintro rfl
    have hred : rmdirModel s parent name (Except.ok ()) =
        ((s.del_inode_with_path (pathPush pp name)).2, Reply.ok) := by
      simp [rmdirModel, h]
    rw [hred]
    constructor
    · show HMap.get ((BiHashMap.remove_right s.list (pathPush pp name)).2).right
        (pathPush pp name) = none
      rw [BiHashMap.remove_right_get_right, if_pos rfl]
    · rfl
  · rintro i rfl
    by_cases hi : i = -31
    · simp [rmdirModel, h, hi]
    · simp [rmdirModel, h, hi, ssh2ErrorToErrno]

/-- Witness for C7: a concrete table with the parent resolved, exercised on
a remote success and on session error −5. -/
theorem rmdir_replies_witness :
    ((rmdirModel (sshfsNewInodes ["r"]) 2 "d" (Except.ok ())).1.get_inode
        (pathPush ["r"] "d") = none ∧
      (rmdirModel (sshfsNewInodes ["r"]) 2 "d" (Except.ok ())).2 = Reply.ok) ∧
      (rmdirModel (sshfsNewInodes ["r"]) 2 "d"
          (Except.error (Ssh2ErrorCode.session (-5)))).2 =
        if (-5 : Int) = -31 then Reply.error ENOTEMPTYc
        else Reply.error ENXIOc :=
  ⟨(rmdir_replies (sshfsNewInodes ["r"]) 2 "d" (Except.ok ()) ["r"]
      (by decide)).1 rfl,
   (rmdir_replies (sshfsNewInodes ["r"]) 2 "d"
      (Except.error (Ssh2ErrorCode.session (-5))) ["r"] (by decide)).2
      (-5) rfl⟩

/-- C8: `mknod` replies `EPERM` and issues no remote request when the
file-type bits of `mode` are not `S_IFREG`; whenever a remote create is
issued, its mode is `mode & (!umask | S_IFMT)`. -/
theorem mknod_eperm_and_mode (s : Inodes) (parent : Nat) (name : String)
    (mode umask uid gid : Nat) (ro : Except Ssh2ErrorCode Unit)
    (rl : Except Ssh2ErrorCode FileStat) (ft : SftpFileType) :
    (mode &&& S_IFMTc ≠ S_IFREGc →
      mknodModel s parent name mode umask uid gid ro rl ft =
        (s, Reply.error EPERMc, none)) ∧
      (∀ em, (mknodModel s parent name mode umask uid gid ro rl ft).2.2 =
          some em →
        em = mode &&& (not32 umask ||| S_IFMTc)) ∧
      (mode &&& S_IFMTc = S_IFREGc → ∀ pp, s.get_path parent = some pp →
        (mknodModel s parent name mode umask uid gid ro rl ft).2.2 =
          some (mode &&& (not32 umask ||| S_IFMTc))) := by
  refine ⟨?_, ?_, ?_⟩
  · intro hty
    simp [mknodModel, hty]
  · intro em hem
    by_cases hty : mode &&& S_IFMTc ≠ S_IFREGc
    · simp [mknodModel, hty] at hem
    · have hty2 : mode &&& S_IFMTc = S_IFREGc := not_not.mp hty
      cases hp : s.get_path parent with
      | none => simp [mknodModel, hty2, hp] at hem
      | some pp =>
        cases ro with
        | error e =>
          simp [mknodModel, hty2, hp] at hem
          exact hem.symm
        | ok u =>
          cases hga : getattr_from_ssh2 s (pathPush pp name) uid gid rl ft with
          | error e2 =>
            simp [mknodModel, hty2, hp, hga] at hem
            exact hem.symm
          | ok res =>
            simp [mknodModel, hty2, hp, hga] at hem
            exact hem.symm
  · intro hty2 pp hp
    cases ro with
    | error e => simp [mknodModel, hty2, hp]
    | ok u =>
      cases hga : getattr_from_ssh2 s (pathPush pp name) uid gid rl ft with
      | error e2 => simp [mknodModel, hty2, hp, hga]
      | ok res => simp [mknodModel, hty2, hp, hga]

/-- Witness for C8: mode 0 (not a regular file) replies EPERM with no
request; mode `0o100644` with umask `0o022` yields effective mode
`0o100644`. -/
theorem mknod_eperm_and_mode_witness :
    mknodModel (sshfsNewInodes ["r"]) 2 "f" 0 0 0 0 (Except.ok ())
        (Except.error (Ssh2ErrorCode.session 0)) (SftpFileType.other 0) =
      (sshfsNewInodes ["r"], Reply.error EPERMc, none) ∧
      (33188 : Nat) = 33188 &&& (not32 18 ||| S_IFMTc) :=
  ⟨(mknod_eperm_and_mode (sshfsNewInodes ["r"]) 2 "f" 0 0 0 0 (Except.ok ())
      (Except.error (Ssh2ErrorCode.session 0)) (SftpFileType.other 0)).1
      (by decide),
   (mknod_eperm_and_mode (sshfsNewInodes ["r"]) 2 "f" 33188 18 0 0
      (Except.error (Ssh2ErrorCode.session 0))
      (Except.error (Ssh2ErrorCode.session 0)) (SftpFileType.other 0)).2.1
      33188 (by decide)⟩

/-- C9: every successful attribute fetch satisfies the spec equations:
`blocks = size/512 + 1` with absent size read as 0, `ctime = mtime`,
`crtime` is the epoch, `perm` defaults to `0o666` when the SFTP mode is
absent, `nlink = 1`, and `uid`/`gid` are the caller's. -/
theorem getattr_attr_fields (s : Inodes) (path : RPath) (uid gid : Nat)
    (st : FileStat) (ft : SftpFileType) (a : FileAttr) (s2 : Inodes)
    (h : getattr_from_ssh2 s path uid gid (Except.ok st) ft =
      Except.ok (a, s2)) :
    a.blocks = st.size.getD 0 / 512 + 1 ∧
      a.size = st.size.getD 0 ∧
      a.ctime = a.mtime ∧
      a.crtime = 0 ∧
      (st.perm = none → a.perm = 0o666) ∧
      a.nlink = 1 ∧ a.uid = uid ∧ a.gid = gid := by
  cases hft : conv_file_kind_ssh2fuser ft with
  | error e => simp [getattr_from_ssh2, hft] at h
  | ok kind =>
    simp only [getattr_from_ssh2, hft, Except.ok.injEq, Prod.mk.injEq] at h
    obtain ⟨ha, hs⟩ := h
    subst ha
    refine ⟨rfl, rfl, rfl, rfl, ?_, rfl, rfl, rfl⟩
    intro hp
    simp [hp]

/-- Witness for C9 on the concrete fetch of `statW`. -/
theorem getattr_attr_fields_witness :
    attrW.blocks = statW.size.getD 0 / 512 + 1 ∧
      attrW.size = statW.size.getD 0 ∧
      attrW.ctime = attrW.mtime ∧
      attrW.crtime = 0 ∧
      (statW.perm = none → attrW.perm = 0o666) ∧
      attrW.nlink = 1 ∧ attrW.uid = 42 ∧ attrW.gid = 43 :=
  getattr_attr_fields Inodes.new ["f"] 42 43 statW SftpFileType.regularFile
    attrW inodesW rfl

/-- C10: on every reachable table state `add` returns an inode of at least
2, no registered path is bound to inode 1, and therefore the synthetic
inode 1 `readdir` emits for `.` and `..` never equals the inode of a
registered path. -/
theorem add_ge_two_and_dot_disjoint (s : Inodes) (h : ReachableInodes s) :
    (∀ p, 2 ≤ (s.add p).1) ∧
      (∀ p i, s.get_inode p = some i → i ≠ 1) ∧
      ∀ entry, (readdirEntryIno s entry false).1 ≠ 1 ∧
        (readdirEntryIno s entry true).1 = 1 := by
  have hg := Inodes.good_reachable h
  have hmain : ∀ p, 2 ≤ (s.add p).1 := by
    intro p
    cases hreg : s.get_inode p with
    | some i =>
      rw [Inodes.add_of_registered hreg]
      show 2 ≤ i
      have hleft : HMap.get s.list.left i = some p := (hg.1.2.2 i p).mpr hreg
      exact (hg.2.2 i p hleft).1
    | none =>
      rw [Inodes.add_of_unregistered hg hreg]
      show 2 ≤ s.next_inode
      exact hg.2.1
  refine ⟨hmain, ?_, ?_⟩
  · intro p i hreg
    have hleft : HMap.get s.list.left i = some p := (hg.1.2.2 i p).mpr hreg
    have := (hg.2.2 i p hleft).1
    omega
  · intro entry
    constructor
    · show (s.add entry).1 ≠ 1
      have := hmain entry
      omega
    · rfl

/-- Witness for C10 at the concrete reachable state `Inodes::new`. -/
theorem add_ge_two_and_dot_disjoint_witness :
    2 ≤ (Inodes.new.add ["a"]).1 ∧
      (readdirEntryIno Inodes.new ["a"] true).1 = 1 :=
  ⟨(add_ge_two_and_dot_disjoint Inodes.new ⟨[], rfl⟩).1 ["a"],
    ((add_ge_two_and_dot_disjoint Inodes.new ⟨[], rfl⟩).2.2 ["a"]).2⟩
